import Mathlib

/-!
# Verification of `fngraph.py`

A shallow embedding of the annotated call-graph extractor `fngraph.py`:
the `ast.NodeVisitor` subclass `FunctionCounter`, the projector
`to_networkx`, the colorizer `color_vector` and the merger
`merge_networkx` (the latter two via a model of networkx's
`MultiDiGraph.add_edge` / `compose` semantics).

Python syntax-tree nodes are modelled by the mutual inductive
`Node` / `NodeList`.  Node kinds that the program treats identically and
that no claim distinguishes are merged: the four comprehension
expressions (`GeneratorExp`, `ListComp`, `DictComp`, `SetComp`) become
`Node.Comp`, and every node kind without a dedicated `visit_*` method or
`isinstance` test in the source (`Module`, `Expr`, `Assign`, `alias`,
`comprehension` clauses, ...) becomes `Node.Other` — the visitor's
`generic_visit` and `_register_calls`'s `else` branch treat them all
uniformly through `ast.iter_child_nodes`.  A node's child list holds its
node-valued fields flattened in source order, exactly what
`ast.iter_child_nodes` yields.
-/

/- Python AST nodes, as the program distinguishes them.  `FunctionDef`
and `ClassDef` carry their `.name` attribute; `Name` carries its `.id`;
`Call` carries its `.func` child followed by its argument children. -/
mutual

inductive Node where
  | FunctionDef (name : String) (body : NodeList)
  | ClassDef (name : String) (body : NodeList)
  | If (children : NodeList)
  | IfExp (children : NodeList)
  | For (children : NodeList)
  | While (children : NodeList)
  | Comp (children : NodeList)
  | Call (func : Node) (args : NodeList)
  | Name (id : String)
  | Attribute (children : NodeList)
  | Other (children : NodeList)
  deriving DecidableEq

inductive NodeList where
  | nil
  | cons (head : Node) (tail : NodeList)
  deriving DecidableEq

end

/- Python dictionaries key AST nodes by object identity; structural
equality (the derived `DecidableEq`) agrees with it on every tree in
which no two distinct visited nodes are structurally equal, and the
observable outputs (`to_networkx`, `pretty_calls`) depend on owners
only through their `.name`, so nothing below distinguishes the two. -/

/-- The `Call` dataclass of the source: the `ast.Name` node that was the
call's `.func` (field `obj`), and the two context flags. -/
structure Call where
  obj : Node
  is_conditional : Bool
  is_loop : Bool
  deriving DecidableEq

/-- The mutable state of a `FunctionCounter`: `self.index` (definition
name → node, insertion-ordered with in-place overwrite, as a Python
`dict`) and `self.graph` (owner node → its ordered call list, as a
`defaultdict(list)`, insertion-ordered).  The `imports`/`aliases`
tables are omitted: no claim mentions them and they do not feed the
graph or the index. -/
structure St where
  index : List (String × Node)
  graph : List (Node × List Call)
  deriving DecidableEq

def initSt : St := ⟨[], []⟩

/-- `self.index[name] = node`: Python dict assignment — overwrite in
place if the key is present, else append. -/
def setIndex : List (String × Node) → String → Node → List (String × Node)
  | [], k, v => [(k, v)]
  | (k', v') :: rest, k, v =>
      if k' = k then (k, v) :: rest else (k', v') :: setIndex rest k v

/-- Python dict lookup `index[k]`, as an `Option`. -/
def lookupIndex : List (String × Node) → String → Option Node
  | [], _ => none
  | (k', v') :: rest, k => if k' = k then some v' else lookupIndex rest k

/-- `self.graph[parent_node].append(call)`: `defaultdict(list)` access
followed by append — extend the owner's list in place if the owner key
is present, else append a fresh singleton entry. -/
def addCall : List (Node × List Call) → Node → Call → List (Node × List Call)
  | [], p, c => [(p, [c])]
  | (k, cs) :: rest, p, c =>
      if k = p then (k, cs ++ [c]) :: rest
      else (k, cs) :: addCall rest p c

/-- The owner's call list in `graph`, with the `defaultdict` reading:
an absent owner has the empty list. -/
def lookupG : List (Node × List Call) → Node → List Call
  | [], _ => []
  | (k, cs) :: rest, p => if k = p then cs else lookupG rest p

/-- Whether the owner appears as a key of `graph` at all. -/
def memG : List (Node × List Call) → Node → Bool
  | [], _ => false
  | (k, _) :: rest, p => k = p || memG rest p

/- `FunctionCounter._register_calls(node, parent_node, is_conditional,
is_loop)` (lines 78–99).  A `Call` node whose `.func` is a plain `Name`
appends a `Call` record under the owner; a `Call` with an `Attribute`
callee is skipped (`pass`); any other callee shape is also skipped —
and in every `Call` case the procedure does NOT recurse into the call's
children.  Every non-`Call` node iterates its children: a `FunctionDef`
child is first recorded in `self.index`, then each child is recursed
into with `is_conditional := true` for `If`/`IfExp`, `is_loop := true`
for `For`/`While`, and unchanged flags otherwise. -/
mutual

def registerCalls : Node → Node → Bool → Bool → St → St
  | .Call f _, p, c, l, s =>
      match f with
      | .Name _ => { s with graph := addCall s.graph p ⟨f, c, l⟩ }
      | .Attribute _ => s
      | _ => s
  | .FunctionDef _ b, p, c, l, s => registerList b p c l s
  | .ClassDef _ b, p, c, l, s => registerList b p c l s
  | .If cs, p, c, l, s => registerList cs p c l s
  | .IfExp cs, p, c, l, s => registerList cs p c l s
  | .For cs, p, c, l, s => registerList cs p c l s
  | .While cs, p, c, l, s => registerList cs p c l s
  | .Comp cs, p, c, l, s => registerList cs p c l s
  | .Name _, _, _, _, s => s
  | .Attribute cs, p, c, l, s => registerList cs p c l s
  | .Other cs, p, c, l, s => registerList cs p c l s

def registerList : NodeList → Node → Bool → Bool → St → St
  | .nil, _, _, _, s => s
  | .cons ch rest, p, c, l, s =>
      let s1 : St :=
        match ch with
        | .FunctionDef nm _ => { s with index := setIndex s.index nm ch }
        | _ => s
      let s2 : St :=
        match ch with
        | .If _ => registerCalls ch p true l s1
        | .IfExp _ => registerCalls ch p true l s1
        | .For _ => registerCalls ch p c true s1
        | .While _ => registerCalls ch p c true s1
        | _ => registerCalls ch p c l s1
      registerList rest p c l s2

end

/- `ast.NodeVisitor.visit` dispatch as `FunctionCounter` defines it:
`visit_FunctionDef` / `visit_ClassDef` record the definition and start a
registration pass rooted at it (and do NOT call `generic_visit`, so the
walk does not descend further); `visit_For` / `visit_While` and the four
comprehension visitors start a registration pass with `is_loop=True`;
every other node kind falls back to `generic_visit`, which visits each
child in source order. -/
mutual

def visit : Node → St → St
  | .FunctionDef nm b, s =>
      registerCalls (.FunctionDef nm b) (.FunctionDef nm b) false false
        { s with index := setIndex s.index nm (.FunctionDef nm b) }
  | .ClassDef nm b, s =>
      registerCalls (.ClassDef nm b) (.ClassDef nm b) false false
        { s with index := setIndex s.index nm (.ClassDef nm b) }
  | .For cs, s => registerCalls (.For cs) (.For cs) false true s
  | .While cs, s => registerCalls (.While cs) (.While cs) false true s
  | .Comp cs, s => registerCalls (.Comp cs) (.Comp cs) false true s
  | .If cs, s => visitList cs s
  | .IfExp cs, s => visitList cs s
  | .Call f a, s => visitList a (visit f s)
  | .Name _, s => s
  | .Attribute cs, s => visitList cs s
  | .Other cs, s => visitList cs s

def visitList : NodeList → St → St
  | .nil, s => s
  | .cons n rest, s => visitList rest (visit n s)

end

/-- One full extraction pass: `self.visit(self.ast)` on the parsed root
(a `Module` node, modelled as `Node.Other` of its statements), starting
from empty tables. -/
def extract (root : Node) : St := visit root initSt

/-- The `.name` attribute, present on `FunctionDef` / `ClassDef` only;
`none` models the `AttributeError` raised on any other node. -/
def getName : Node → Option String
  | .FunctionDef nm _ => some nm
  | .ClassDef nm _ => some nm
  | _ => none

/-- The `.id` attribute, present on `Name` nodes only. -/
def getId : Node → Option String
  | .Name i => some i
  | _ => none

/-- An edge of a networkx `MultiDiGraph`: endpoints, the multi-edge key
(auto-assigned from 0 upward per `(src, tgt)` pair when absent from the
`add_edge` call), and the two annotation attributes. -/
structure Edge where
  src : String
  tgt : String
  key : Nat
  in_conditional : Bool
  in_loop : Bool
  deriving DecidableEq

/-- A networkx `MultiDiGraph`, as the program uses it: insertion-ordered
node list and insertion-ordered edge list. -/
structure Graph where
  nodes : List String
  edges : List Edge
  deriving DecidableEq

def emptyG : Graph := ⟨[], []⟩

/-- networkx node insertion: a repeated node is not duplicated. -/
def addNode (ns : List String) (x : String) : List String :=
  if x ∈ ns then ns else ns ++ [x]

/-- `G.add_edge(u, v, **data)` without an explicit key: both endpoints
become nodes, and the new edge gets the first free key for `(u, v)` —
with only auto-assigned keys that is the number of existing `(u, v)`
edges. -/
def addEdgeAuto (G : Graph) (u v : String) (c l : Bool) : Graph :=
  ⟨addNode (addNode G.nodes u) v,
   G.edges ++ [⟨u, v, (G.edges.filter (fun e => e.src = u && e.tgt = v)).length, c, l⟩]⟩

/-- `G.add_edge(u, v, key=k, **data)` with an explicit key, as
`nx.compose` replays edges: if an edge `(u, v, k)` already exists its
attribute dict is updated in place (the new attributes win), otherwise
the edge is appended. -/
def addEdgeKeyed (G : Graph) (u v : String) (k : Nat) (c l : Bool) : Graph :=
  let ns := addNode (addNode G.nodes u) v
  if G.edges.any (fun e => e.src = u && e.tgt = v && e.key = k) then
    ⟨ns, G.edges.map (fun e =>
      if e.src = u && e.tgt = v && e.key = k then ⟨u, v, k, c, l⟩ else e)⟩
  else ⟨ns, G.edges ++ [⟨u, v, k, c, l⟩]⟩

/-- Body of the `to_networkx` double loop for one `Call` record `e` of
owner `v1` (lines 127–128).  Python evaluation order: with
`filter_builtins` true, `e.obj.id` is read while testing membership in
the builtin set; an edge that passes the filter then reads `v1.name`
(an owner without a `.name` raises only if one of its calls passes).
With `filter_builtins` false the condition short-circuits, and
`add_edge(v1.name, e.obj.id, ...)` reads both attributes.  Either way
`e.obj.id` is read exactly when the condition is evaluated or the edge
added, and `v1.name` exactly when the edge is added; `none` models the
`AttributeError`. -/
def projCall (fb : Bool) (bset : String → Bool) (owner : Node) (G : Graph)
    (e : Call) : Option Graph :=
  match getId e.obj with
  | none => none
  | some id =>
    if (fb && !(bset id)) || !fb then
      match getName owner with
      | none => none
      | some nm => some (addEdgeAuto G nm id e.is_conditional e.is_loop)
    else some G

/-- Inner loop of `to_networkx`: all calls of one owner, in order. -/
def projCalls (fb : Bool) (bset : String → Bool) (owner : Node) :
    Graph → List Call → Option Graph
  | G, [] => some G
  | G, e :: rest =>
      match projCall fb bset owner G e with
      | none => none
      | some G' => projCalls fb bset owner G' rest

/-- Outer loop of `to_networkx`: the `graph.items()` entries, in order. -/
def projEntries (fb : Bool) (bset : String → Bool) :
    Graph → List (Node × List Call) → Option Graph
  | G, [] => some G
  | G, (v1, v2) :: rest =>
      match projCalls fb bset v1 G v2 with
      | none => none
      | some G' => projEntries fb bset G' rest

/-- `to_networkx(fnc, filter_builtins)` (lines 111–129).  The builtin
name set `set(dir(__builtins__))` is environment-supplied; it is passed
here as the predicate `bset`. -/
def to_networkx (fnc : St) (fb : Bool) (bset : String → Bool) : Option Graph :=
  projEntries fb bset emptyG fnc.graph

/-- The module-level `colors` colormap (line 133). -/
def colors : List ((Bool × Bool) × String) :=
  [((true, true), "brown"), ((true, false), "cyan"),
   ((false, true), "red"), ((false, false), "black")]

/-- Python dict lookup `colormap[key]`; `none` models the `KeyError`. -/
def lookupCM (cm : List ((Bool × Bool) × String)) (k : Bool × Bool) :
    Option String :=
  match cm with
  | [] => none
  | (k', v) :: rest => if k' = k then some v else lookupCM rest k

/-- The `color_vector` loop over an edge list: append the color looked
up by each edge's `(in_conditional, in_loop)` pair; the first missing
pair aborts with a `KeyError` (`none`). -/
def colorList (cm : List ((Bool × Bool) × String)) : List Edge → Option (List String)
  | [] => some []
  | e :: rest =>
      match lookupCM cm (e.in_conditional, e.in_loop) with
      | none => none
      | some col =>
          match colorList cm rest with
          | none => none
          | some cols => some (col :: cols)

/-- `color_vector(G, colormap)` (lines 135–140): one color per edge, in
the graph's edge order. -/
def color_vector (G : Graph) (cm : List ((Bool × Bool) × String)) :
    Option (List String) :=
  colorList cm G.edges

/-- `nx.compose(G, H)` for multigraphs: a fresh graph receives `G`'s
nodes and edges, then `H`'s nodes, then `H`'s edges replayed with their
keys — an `H` edge whose `(src, tgt, key)` triple already exists
overwrites that edge's attributes (`H` wins), any other is appended. -/
def compose (G H : Graph) : Graph :=
  H.edges.foldl
    (fun A e => addEdgeKeyed A e.src e.tgt e.key e.in_conditional e.in_loop)
    ⟨H.nodes.foldl addNode G.nodes, G.edges⟩

/-- `merge_networkx(fncs, filter_builtins)` (lines 142–145): project
each counter, then `reduce(nx.compose, ...)` left-to-right.  `reduce`
on an empty sequence raises (`none`); a projection failure propagates. -/
def merge_networkx (fncs : List St) (fb : Bool) (bset : String → Bool) :
    Option Graph :=
  match fncs.mapM (fun f => to_networkx f fb bset) with
  | none => none
  | some [] => none
  | some (g :: rest) => some (rest.foldl compose g)

/-- Python dict assignment for the string-keyed result of
`pretty_calls`. -/
def setAssoc (rv : List (String × List String)) (k : String)
    (v : List String) : List (String × List String) :=
  match rv with
  | [] => [(k, v)]
  | (k', v') :: rest =>
      if k' = k then (k, v) :: rest else (k', v') :: setAssoc rest k v

/-- The `pretty_calls` property (lines 101–108): for each graph entry,
read `f.name` (raising on an unnamed owner), then each call's
`.obj.id`, and bind the id list under the name. -/
def pretty_calls (s : St) : Option (List (String × List String)) :=
  s.graph.foldlM
    (fun rv fv =>
      match getName fv.1 with
      | none => none
      | some nm =>
        match fv.2.mapM (fun v1 => getId v1.obj) with
        | none => none
        | some ids => some (setAssoc rv nm ids))
    []

/-- List-literal constructor for `NodeList`. -/
def NL : List Node → NodeList
  | [] => .nil
  | n :: rest => .cons n (NL rest)

/-- A call statement `f()`: `ast.Expr` wrapping `ast.Call(Name(f))`. -/
def stmtCall (f : String) : Node := .Other (NL [.Call (.Name f) .nil])

/- The call records one registration pass rooted at `node` with entry
flags `(c, l)` appends under its owner, in emission order.  This is a
derived description of `registerCalls`'s effect on `graph`, proved
exact in `registerCalls_graph` below. -/
mutual

def emitted : Node → Bool → Bool → List Call
  | .Call f _, c, l =>
      match f with
      | .Name _ => [⟨f, c, l⟩]
      | _ => []
  | .FunctionDef _ b, c, l => emittedList b c l
  | .ClassDef _ b, c, l => emittedList b c l
  | .If cs, c, l => emittedList cs c l
  | .IfExp cs, c, l => emittedList cs c l
  | .For cs, c, l => emittedList cs c l
  | .While cs, c, l => emittedList cs c l
  | .Comp cs, c, l => emittedList cs c l
  | .Name _, _, _ => []
  | .Attribute cs, c, l => emittedList cs c l
  | .Other cs, c, l => emittedList cs c l

def emittedList : NodeList → Bool → Bool → List Call
  | .nil, _, _ => []
  | .cons ch rest, c, l =>
      (match ch with
       | .If _ => emitted ch true l
       | .IfExp _ => emitted ch true l
       | .For _ => emitted ch c true
       | .While _ => emitted ch c true
       | _ => emitted ch c l) ++ emittedList rest c l

end

theorem lookupG_addCall (g : List (Node × List Call)) (p q : Node) (c : Call) :
    lookupG (addCall g p c) q = lookupG g q ++ (if q = p then [c] else []) := by
  induction g with
  | nil =>
      by_cases h : p = q
      · subst h; simp [addCall, lookupG]
      · have h' : ¬q = p := fun hh => h hh.symm
        simp [addCall, lookupG, h, h']
  | cons kv rest ih =>
      obtain ⟨k, cs⟩ := kv
      by_cases hk : k = p
      · subst hk
        by_cases hq : k = q
        · subst hq; simp [addCall, lookupG]
        · have hq' : ¬q = k := fun hh => hq hh.symm
          simp [addCall, lookupG, hq, hq']
      · by_cases hq : k = q
        · subst hq
          simp [addCall, lookupG, hk]
        · have hq' : ¬q = k := fun hh => hq hh.symm
          simp [addCall, lookupG, hk, hq, hq', ih]

/- The exact effect of one registration pass on the call graph: the
owner `p`'s list is extended by `emitted node c l`, and every other
owner's list is untouched. -/
mutual

theorem registerCalls_graph (n p : Node) (c l : Bool) (s : St) (q : Node) :
    lookupG (registerCalls n p c l s).graph q =
      lookupG s.graph q ++ (if q = p then emitted n c l else []) := by
  cases n with
  | Call f a =>
      cases f <;> simp [registerCalls, emitted, lookupG_addCall]
  | FunctionDef nm b =>
      simpa [registerCalls, emitted] using registerList_graph b p c l s q
  | ClassDef nm b =>
      simpa [registerCalls, emitted] using registerList_graph b p c l s q
  | If cs => simpa [registerCalls, emitted] using registerList_graph cs p c l s q
  | IfExp cs => simpa [registerCalls, emitted] using registerList_graph cs p c l s q
  | For cs => simpa [registerCalls, emitted] using registerList_graph cs p c l s q
  | While cs => simpa [registerCalls, emitted] using registerList_graph cs p c l s q
  | Comp cs => simpa [registerCalls, emitted] using registerList_graph cs p c l s q
  | Name i => simp [registerCalls, emitted]
  | Attribute cs => simpa [registerCalls, emitted] using registerList_graph cs p c l s q
  | Other cs => simpa [registerCalls, emitted] using registerList_graph cs p c l s q

theorem registerList_graph (ns : NodeList) (p : Node) (c l : Bool) (s : St) (q : Node) :
    lookupG (registerList ns p c l s).graph q =
      lookupG s.graph q ++ (if q = p then emittedList ns c l else []) := by
  cases ns with
  | nil => simp [registerList, emittedList]
  | cons ch rest =>
      cases ch <;>
        · simp only [registerList, emittedList]
          rw [registerList_graph rest, registerCalls_graph]
          by_cases h : q = p <;> simp [h]

end

/- Flag monotonicity of one registration pass: every call record emitted
below entry flags `(c, l)` carries flags at least as large. -/
mutual

theorem emitted_mono (n : Node) (c l : Bool) (e : Call)
    (he : e ∈ emitted n c l) :
    (c = true → e.is_conditional = true) ∧ (l = true → e.is_loop = true) := by
  cases n with
  | Call f a =>
      cases f <;> simp [emitted] at he
      subst he; exact ⟨fun h => h, fun h => h⟩
  | FunctionDef nm b => exact emittedList_mono b c l e (by simpa [emitted] using he)
  | ClassDef nm b => exact emittedList_mono b c l e (by simpa [emitted] using he)
  | If cs => exact emittedList_mono cs c l e (by simpa [emitted] using he)
  | IfExp cs => exact emittedList_mono cs c l e (by simpa [emitted] using he)
  | For cs => exact emittedList_mono cs c l e (by simpa [emitted] using he)
  | While cs => exact emittedList_mono cs c l e (by simpa [emitted] using he)
  | Comp cs => exact emittedList_mono cs c l e (by simpa [emitted] using he)
  | Name i => simp [emitted] at he
  | Attribute cs => exact emittedList_mono cs c l e (by simpa [emitted] using he)
  | Other cs => exact emittedList_mono cs c l e (by simpa [emitted] using he)

theorem emittedList_mono (ns : NodeList) (c l : Bool) (e : Call)
    (he : e ∈ emittedList ns c l) :
    (c = true → e.is_conditional = true) ∧ (l = true → e.is_loop = true) := by
  cases ns with
  | nil => simp [emittedList] at he
  | cons ch rest =>
      cases ch with
        | FunctionDef nm b =>
            simp only [emittedList] at he
            rcases List.mem_append.mp he with hh | ht
            · exact emitted_mono _ c l e hh
            · exact emittedList_mono rest c l e ht
        | ClassDef nm b =>
            simp only [emittedList] at he
            rcases List.mem_append.mp he with hh | ht
            · exact emitted_mono _ c l e hh
            · exact emittedList_mono rest c l e ht
        | If cs =>
            simp only [emittedList] at he
            rcases List.mem_append.mp he with hh | ht
            · obtain ⟨h1, h2⟩ := emitted_mono _ true l e hh
              exact ⟨fun _ => h1 rfl, h2⟩
            · exact emittedList_mono rest c l e ht
        | IfExp cs =>
            simp only [emittedList] at he
            rcases List.mem_append.mp he with hh | ht
            · obtain ⟨h1, h2⟩ := emitted_mono _ true l e hh
              exact ⟨fun _ => h1 rfl, h2⟩
            · exact emittedList_mono rest c l e ht
        | For cs =>
            simp only [emittedList] at he
            rcases List.mem_append.mp he with hh | ht
            · obtain ⟨h1, h2⟩ := emitted_mono _ c true e hh
              exact ⟨h1, fun _ => h2 rfl⟩
            · exact emittedList_mono rest c l e ht
        | While cs =>
            simp only [emittedList] at he
            rcases List.mem_append.mp he with hh | ht
            · obtain ⟨h1, h2⟩ := emitted_mono _ c true e hh
              exact ⟨h1, fun _ => h2 rfl⟩
            · exact emittedList_mono rest c l e ht
        | Comp cs =>
            simp only [emittedList] at he
            rcases List.mem_append.mp he with hh | ht
            · exact emitted_mono _ c l e hh
            · exact emittedList_mono rest c l e ht
        | Call f a =>
            simp only [emittedList] at he
            rcases List.mem_append.mp he with hh | ht
            · exact emitted_mono _ c l e hh
            · exact emittedList_mono rest c l e ht
        | Name i =>
            simp only [emittedList] at he
            rcases List.mem_append.mp he with hh | ht
            · exact emitted_mono _ c l e hh
            · exact emittedList_mono rest c l e ht
        | Attribute cs =>
            simp only [emittedList] at he
            rcases List.mem_append.mp he with hh | ht
            · exact emitted_mono _ c l e hh
            · exact emittedList_mono rest c l e ht
        | Other cs =>
            simp only [emittedList] at he
            rcases List.mem_append.mp he with hh | ht
            · exact emitted_mono _ c l e hh
            · exact emittedList_mono rest c l e ht

end

/- Error-explicit replay of the extraction pass: every Python attribute
access the Extractor performs (`node.name` on lines 50 and 54,
`child.name` on line 92) is modelled through the fallible `getName`,
with `none` for the `AttributeError` a missing attribute would raise.
`extractChk_total` below proves the replay never fails and agrees with
`extract`, i.e. the Extractor raises no error on any tree. -/
mutual

def registerChk : Node → Node → Bool → Bool → St → Option St
  | .Call f _, p, c, l, s =>
      match f with
      | .Name _ => some { s with graph := addCall s.graph p ⟨f, c, l⟩ }
      | .Attribute _ => some s
      | _ => some s
  | .FunctionDef _ b, p, c, l, s => registerListChk b p c l s
  | .ClassDef _ b, p, c, l, s => registerListChk b p c l s
  | .If cs, p, c, l, s => registerListChk cs p c l s
  | .IfExp cs, p, c, l, s => registerListChk cs p c l s
  | .For cs, p, c, l, s => registerListChk cs p c l s
  | .While cs, p, c, l, s => registerListChk cs p c l s
  | .Comp cs, p, c, l, s => registerListChk cs p c l s
  | .Name _, _, _, _, s => some s
  | .Attribute cs, p, c, l, s => registerListChk cs p c l s
  | .Other cs, p, c, l, s => registerListChk cs p c l s

def registerListChk : NodeList → Node → Bool → Bool → St → Option St
  | .nil, _, _, _, s => some s
  | .cons ch rest, p, c, l, s =>
      let s1? : Option St :=
        match ch with
        | .FunctionDef _ _ =>
            match getName ch with
            | none => none
            | some nm => some { s with index := setIndex s.index nm ch }
        | _ => some s
      match s1? with
      | none => none
      | some s1 =>
          let s2? : Option St :=
            match ch with
            | .If _ => registerChk ch p true l s1
            | .IfExp _ => registerChk ch p true l s1
            | .For _ => registerChk ch p c true s1
            | .While _ => registerChk ch p c true s1
            | _ => registerChk ch p c l s1
          match s2? with
          | none => none
          | some s2 => registerListChk rest p c l s2

end

mutual

def visitChk : Node → St → Option St
  | .FunctionDef nm b, s =>
      match getName (.FunctionDef nm b) with
      | none => none
      | some nm' =>
          registerChk (.FunctionDef nm b) (.FunctionDef nm b) false false
            { s with index := setIndex s.index nm' (.FunctionDef nm b) }
  | .ClassDef nm b, s =>
      match getName (.ClassDef nm b) with
      | none => none
      | some nm' =>
          registerChk (.ClassDef nm b) (.ClassDef nm b) false false
            { s with index := setIndex s.index nm' (.ClassDef nm b) }
  | .For cs, s => registerChk (.For cs) (.For cs) false true s
  | .While cs, s => registerChk (.While cs) (.While cs) false true s
  | .Comp cs, s => registerChk (.Comp cs) (.Comp cs) false true s
  | .If cs, s => visitListChk cs s
  | .IfExp cs, s => visitListChk cs s
  | .Call f a, s =>
      match visitChk f s with
      | none => none
      | some s' => visitListChk a s'
  | .Name _, s => some s
  | .Attribute cs, s => visitListChk cs s
  | .Other cs, s => visitListChk cs s

def visitListChk : NodeList → St → Option St
  | .nil, s => some s
  | .cons n rest, s =>
      match visitChk n s with
      | none => none
      | some s' => visitListChk rest s'

end

/-- The error-explicit extraction pass. -/
def extractChk (root : Node) : Option St := visitChk root initSt

/- The error-explicit replay agrees with the total extraction pass on
every tree: no attribute access of the Extractor can fail. -/
mutual

theorem registerChk_eq (n p : Node) (c l : Bool) (s : St) :
    registerChk n p c l s = some (registerCalls n p c l s) := by
  cases n with
  | Call f a => cases f <;> rfl
  | FunctionDef nm b =>
      simpa [registerChk, registerCalls] using registerListChk_eq b p c l s
  | ClassDef nm b =>
      simpa [registerChk, registerCalls] using registerListChk_eq b p c l s
  | If cs => simpa [registerChk, registerCalls] using registerListChk_eq cs p c l s
  | IfExp cs => simpa [registerChk, registerCalls] using registerListChk_eq cs p c l s
  | For cs => simpa [registerChk, registerCalls] using registerListChk_eq cs p c l s
  | While cs => simpa [registerChk, registerCalls] using registerListChk_eq cs p c l s
  | Comp cs => simpa [registerChk, registerCalls] using registerListChk_eq cs p c l s
  | Name i => rfl
  | Attribute cs =>
      simpa [registerChk, registerCalls] using registerListChk_eq cs p c l s
  | Other cs => simpa [registerChk, registerCalls] using registerListChk_eq cs p c l s

theorem registerListChk_eq (ns : NodeList) (p : Node) (c l : Bool) (s : St) :
    registerListChk ns p c l s = some (registerList ns p c l s) := by
  cases ns with
  | nil => rfl
  | cons ch rest =>
      cases ch <;>
        · simp only [registerListChk, registerList, getName]
          rw [registerChk_eq]
          simp only [Option.some.injEq]
          rw [registerListChk_eq]

end

mutual

theorem visitChk_eq (n : Node) (s : St) : visitChk n s = some (visit n s) := by
  cases n with
  | FunctionDef nm b =>
      simp only [visitChk, visit, getName]
      rw [registerChk_eq]
  | ClassDef nm b =>
      simp only [visitChk, visit, getName]
      rw [registerChk_eq]
  | For cs => simpa [visitChk, visit] using registerChk_eq (.For cs) (.For cs) false true s
  | While cs =>
      simpa [visitChk, visit] using registerChk_eq (.While cs) (.While cs) false true s
  | Comp cs =>
      simpa [visitChk, visit] using registerChk_eq (.Comp cs) (.Comp cs) false true s
  | If cs => simpa [visitChk, visit] using visitListChk_eq cs s
  | IfExp cs => simpa [visitChk, visit] using visitListChk_eq cs s
  | Call f a =>
      simp only [visitChk, visit]
      rw [visitChk_eq f s]
      exact visitListChk_eq a (visit f s)
  | Name i => rfl
  | Attribute cs => simpa [visitChk, visit] using visitListChk_eq cs s
  | Other cs => simpa [visitChk, visit] using visitListChk_eq cs s

theorem visitListChk_eq (ns : NodeList) (s : St) :
    visitListChk ns s = some (visitList ns s) := by
  cases ns with
  | nil => rfl
  | cons n rest =>
      simp only [visitListChk, visitList]
      rw [visitChk_eq]
      exact visitListChk_eq rest (visit n s)

end

/-- An edge without its multi-edge key: source, target and the two
annotation flags. -/
def stripE (e : Edge) : String × String × Bool × Bool :=
  (e.src, e.tgt, e.in_conditional, e.in_loop)

/-- Modelled from the spec (§4.2 Graph Projector): for one owning
definition `D` and one CallEdge, "if `filterBuiltins` is true and
`name` matches a name in the host environment's set of built-in
callable names, skip it; otherwise add a directed edge `D.name → name`
with attributes `{in_conditional, in_loop}`" — rendered as the list of
stripped edges this call contributes, with the same fallible attribute
reads as the code. -/
def specCall (fb : Bool) (bset : String → Bool) (owner : Node) (e : Call) :
    Option (List (String × String × Bool × Bool)) :=
  match getId e.obj with
  | none => none
  | some id =>
    if (fb && !(bset id)) || !fb then
      match getName owner with
      | none => none
      | some nm => some [(nm, id, e.is_conditional, e.is_loop)]
    else some []

/-- Modelled from the spec: the stripped edges one owner's ordered
CallEdge list contributes. -/
def specCalls (fb : Bool) (bset : String → Bool) (owner : Node) :
    List Call → Option (List (String × String × Bool × Bool))
  | [] => some []
  | e :: rest =>
      match specCall fb bset owner e with
      | none => none
      | some es =>
          match specCalls fb bset owner rest with
          | none => none
          | some es' => some (es ++ es')

/-- Modelled from the spec: the stripped edges of the whole projected
graph, owner by owner in CallGraphIndex order. -/
def specEntries (fb : Bool) (bset : String → Bool) :
    List (Node × List Call) → Option (List (String × String × Bool × Bool))
  | [] => some []
  | (o, cs) :: rest =>
      match specCalls fb bset o cs with
      | none => none
      | some es =>
          match specEntries fb bset rest with
          | none => none
          | some es' => some (es ++ es')

theorem projCalls_edges (fb : Bool) (bset : String → Bool) (owner : Node)
    (cs : List Call) (G G' : Graph)
    (h : projCalls fb bset owner G cs = some G') :
    ∃ new, G'.edges = G.edges ++ new ∧
      specCalls fb bset owner cs = some (new.map stripE) := by
  induction cs generalizing G with
  | nil =>
      simp [projCalls] at h
      exact ⟨[], by simp [← h], by simp [specCalls]⟩
  | cons e rest ih =>
      simp only [projCalls, projCall] at h
      cases hid : getId e.obj with
      | none => simp [hid] at h
      | some id =>
          simp only [hid] at h
          simp only [specCalls, specCall, hid]
          by_cases hpass : ((fb && !(bset id)) || !fb) = true
          · rw [if_pos hpass] at h
            rw [if_pos hpass]
            cases hnm : getName owner with
            | none => simp [hnm] at h
            | some nm =>
                simp only [hnm] at h
                obtain ⟨new, hedges, hspec⟩ := ih _ h
                refine ⟨⟨nm, id, (G.edges.filter
                    (fun d => d.src = nm && d.tgt = id)).length,
                    e.is_conditional, e.is_loop⟩ :: new, ?_, ?_⟩
                · simpa [addEdgeAuto] using hedges
                · rw [hspec]; simp [stripE]
          · rw [if_neg hpass] at h
            rw [if_neg hpass]
            simp only at h
            obtain ⟨new, hedges, hspec⟩ := ih _ h
            exact ⟨new, hedges, by rw [hspec]; simp⟩

theorem projEntries_edges (fb : Bool) (bset : String → Bool)
    (entries : List (Node × List Call)) (G G' : Graph)
    (h : projEntries fb bset G entries = some G') :
    ∃ new, G'.edges = G.edges ++ new ∧
      specEntries fb bset entries = some (new.map stripE) := by
  induction entries generalizing G with
  | nil =>
      simp [projEntries] at h
      exact ⟨[], by simp [← h], by simp [specEntries]⟩
  | cons oc rest ih =>
      obtain ⟨o, cs⟩ := oc
      simp only [projEntries] at h
      cases hc : projCalls fb bset o G cs with
      | none => rw [hc] at h; exact absurd h (by simp)
      | some G1 =>
          rw [hc] at h
          obtain ⟨new1, he1, hs1⟩ := projCalls_edges fb bset o cs G G1 hc
          obtain ⟨new2, he2, hs2⟩ := ih _ h
          refine ⟨new1 ++ new2, ?_, ?_⟩
          · rw [he2, he1, List.append_assoc]
          · simp [specEntries, hs1, hs2]

/-- The projector's full edge characterization: a successful
`to_networkx` produces, up to multi-edge keys, exactly the spec's
stripped edge list, in order. -/
theorem to_networkx_edges (s : St) (fb : Bool) (bset : String → Bool)
    (G : Graph) (h : to_networkx s fb bset = some G) :
    specEntries fb bset s.graph = some (G.edges.map stripE) := by
  obtain ⟨new, hedges, hspec⟩ := projEntries_edges fb bset s.graph emptyG G h
  rw [hspec, hedges]
  simp [emptyG]

theorem specCall_builtin (bset : String → Bool) (owner : Node) (e : Call)
    (ts : List (String × String × Bool × Bool))
    (h : specCall true bset owner e = some ts) :
    ∀ x ∈ ts, bset x.2.1 = false := by
  cases hid : getId e.obj with
  | none => simp [specCall, hid] at h
  | some id =>
      simp only [specCall, hid] at h
      by_cases hb : bset id = false
      · cases hnm : getName owner with
        | none => simp [hnm, hb] at h
        | some nm =>
            simp [hnm, hb] at h
            subst h
            intro x hx
            simp at hx
            subst hx
            exact hb
      · have hb' : bset id = true := by
          cases hbb : bset id with
          | false => exact absurd hbb hb
          | true => rfl
        simp [hb'] at h
        subst h
        intro x hx
        simp at hx

theorem specCalls_builtin (bset : String → Bool) (owner : Node)
    (cs : List Call) (ts : List (String × String × Bool × Bool))
    (h : specCalls true bset owner cs = some ts) :
    ∀ x ∈ ts, bset x.2.1 = false := by
  induction cs generalizing ts with
  | nil => simp [specCalls] at h; subst h; intro x hx; simp at hx
  | cons e rest ih =>
      simp only [specCalls] at h
      cases h1 : specCall true bset owner e with
      | none => simp [h1] at h
      | some es =>
          simp only [h1] at h
          cases h2 : specCalls true bset owner rest with
          | none => simp [h2] at h
          | some es' =>
              simp [h2] at h
              subst h
              intro x hx
              rcases List.mem_append.mp hx with hx | hx
              · exact specCall_builtin bset owner e es h1 x hx
              · exact ih es' h2 x hx

theorem specEntries_builtin (bset : String → Bool)
    (entries : List (Node × List Call))
    (ts : List (String × String × Bool × Bool))
    (h : specEntries true bset entries = some ts) :
    ∀ x ∈ ts, bset x.2.1 = false := by
  induction entries generalizing ts with
  | nil => simp [specEntries] at h; subst h; intro x hx; simp at hx
  | cons oc rest ih =>
      obtain ⟨o, cs⟩ := oc
      simp only [specEntries] at h
      cases h1 : specCalls true bset o cs with
      | none => simp [h1] at h
      | some es =>
          simp only [h1] at h
          cases h2 : specEntries true bset rest with
          | none => simp [h2] at h
          | some es' =>
              simp [h2] at h
              subst h
              intro x hx
              rcases List.mem_append.mp hx with hx | hx
              · exact specCalls_builtin bset o cs es h1 x hx
              · exact ih es' h2 x hx

/-- `addNode` membership. -/
theorem mem_addNode (ns : List String) (y x : String) :
    x ∈ addNode ns y ↔ x ∈ ns ∨ x = y := by
  by_cases h : y ∈ ns
  · simp only [addNode, if_pos h]
    constructor
    · exact Or.inl
    · rintro (hx | rfl)
      · exact hx
      · exact h
  · simp [addNode, if_neg h]

theorem mem_foldl_addNode (ms : List String) (ns : List String) (x : String) :
    x ∈ ms.foldl addNode ns ↔ x ∈ ns ∨ x ∈ ms := by
  induction ms generalizing ns with
  | nil => simp
  | cons y rest ih =>
      simp only [List.foldl_cons, ih, mem_addNode, List.mem_cons]
      tauto

/-- `addNode` of a node already present is the identity. -/
theorem addNode_mem (ns : List String) (x : String) (h : x ∈ ns) :
    addNode ns x = ns := by
  simp [addNode, h]

/-- `addEdgeKeyed` leaves the node list at the inserted endpoints'
union, and does not change the node list at all when both endpoints are
already nodes. -/
theorem addEdgeKeyed_nodes (G : Graph) (u v : String) (k : Nat) (c l : Bool)
    (hu : u ∈ G.nodes) (hv : v ∈ G.nodes) :
    (addEdgeKeyed G u v k c l).nodes = G.nodes := by
  unfold addEdgeKeyed
  split <;> simp [addNode_mem _ _ hu, addNode_mem _ _ hv]

/-- An edge-replay fold whose every edge has both endpoints among the
accumulator's nodes never changes the node list. -/
theorem foldl_addEdgeKeyed_nodes (es : List Edge) (A : Graph)
    (h : ∀ e ∈ es, e.src ∈ A.nodes ∧ e.tgt ∈ A.nodes) :
    (es.foldl (fun A e =>
        addEdgeKeyed A e.src e.tgt e.key e.in_conditional e.in_loop) A).nodes
      = A.nodes := by
  induction es generalizing A with
  | nil => rfl
  | cons e rest ih =>
      have he := h e (by simp)
      have hn : (addEdgeKeyed A e.src e.tgt e.key e.in_conditional e.in_loop).nodes
          = A.nodes := addEdgeKeyed_nodes A _ _ _ _ _ he.1 he.2
      rw [List.foldl_cons, ih]
      · exact hn
      · intro d hd
        rw [hn]
        exact h d (by simp [hd])

/-- `nx.compose` node-set semantics: with the standard graph invariant
on the right operand (every edge endpoint is a node), the composed
node set is exactly the union of the operands' node sets. -/
theorem compose_nodes (G H : Graph)
    (hH : ∀ e ∈ H.edges, e.src ∈ H.nodes ∧ e.tgt ∈ H.nodes) (x : String) :
    x ∈ (compose G H).nodes ↔ x ∈ G.nodes ∨ x ∈ H.nodes := by
  unfold compose
  rw [foldl_addEdgeKeyed_nodes]
  · exact mem_foldl_addNode H.nodes G.nodes x
  · intro e he
    constructor
    · exact (mem_foldl_addNode H.nodes G.nodes e.src).mpr (Or.inr (hH e he).1)
    · exact (mem_foldl_addNode H.nodes G.nodes e.tgt).mpr (Or.inr (hH e he).2)

/-- Two edges agreeing on `(src, tgt, key)`, as `add_edge` compares
them. -/
def sameKey (a b : Edge) : Bool :=
  a.src = b.src && a.tgt = b.tgt && a.key = b.key

theorem addEdgeKeyed_edges_of_fresh (A : Graph) (e : Edge)
    (h : ∀ d ∈ A.edges, sameKey d e = false) :
    (addEdgeKeyed A e.src e.tgt e.key e.in_conditional e.in_loop).edges
      = A.edges ++ [e] := by
  have hany : (A.edges.any
      (fun d => d.src = e.src && d.tgt = e.tgt && d.key = e.key)) = false := by
    rw [List.any_eq_false]
    intro d hd
    have := h d hd
    simpa [sameKey] using this
  unfold addEdgeKeyed
  rw [if_neg (by simp [hany])]

theorem foldl_addEdgeKeyed_edges (es : List Edge) (A : Graph)
    (h : ∀ e ∈ es, ∀ d ∈ A.edges, sameKey d e = false)
    (hes : List.Pairwise (fun a b => sameKey a b = false) es) :
    (es.foldl (fun A e =>
        addEdgeKeyed A e.src e.tgt e.key e.in_conditional e.in_loop) A).edges
      = A.edges ++ es := by
  induction es generalizing A with
  | nil => simp
  | cons e rest ih =>
      obtain ⟨hhead, htail⟩ := List.pairwise_cons.mp hes
      have h1 := addEdgeKeyed_edges_of_fresh A e (h e (by simp))
      rw [List.foldl_cons, ih _ ?_ htail]
      · rw [h1]
        simp
      · intro d hd dd hdd
        rw [h1] at hdd
        rcases List.mem_append.mp hdd with hdd | hdd
        · exact h d (by simp [hd]) dd hdd
        · simp at hdd
          subst hdd
          exact hhead d hd

/-- `nx.compose` multigraph edge semantics in the collision-free case:
when no two edges across both operands share a `(src, tgt, key)`
triple, composition concatenates the edge lists. -/
theorem compose_edges_disjoint (G H : Graph)
    (hp : List.Pairwise (fun a b => sameKey a b = false) (G.edges ++ H.edges)) :
    (compose G H).edges = G.edges ++ H.edges := by
  rw [List.pairwise_append] at hp
  obtain ⟨hG, hH, hGH⟩ := hp
  unfold compose
  exact foldl_addEdgeKeyed_edges H.edges ⟨H.nodes.foldl addNode G.nodes, G.edges⟩
    (fun e he d hd => hGH d hd e he) hH

theorem colorList_some (cm : List ((Bool × Bool) × String)) (es : List Edge)
    (cs : List String) (h : colorList cm es = some cs) :
    cs.length = es.length ∧
    ∀ (i : Nat) (h1 : i < es.length) (h2 : i < cs.length),
      lookupCM cm ((es.get ⟨i, h1⟩).in_conditional, (es.get ⟨i, h1⟩).in_loop)
        = some (cs.get ⟨i, h2⟩) := by
  induction es generalizing cs with
  | nil =>
      simp [colorList] at h
      subst h
      exact ⟨rfl, fun i h1 h2 => absurd h1 (by simp)⟩
  | cons e rest ih =>
      simp only [colorList] at h
      cases hcol : lookupCM cm (e.in_conditional, e.in_loop) with
      | none => simp [hcol] at h
      | some col =>
          simp only [hcol] at h
          cases hrest : colorList cm rest with
          | none => simp [hrest] at h
          | some cols =>
              simp only [hrest] at h
              obtain ⟨hlen, hpt⟩ := ih cols hrest
              simp only [Option.some.injEq] at h
              subst h
              refine ⟨by simp [hlen], ?_⟩
              intro i h1 h2
              cases i with
              | zero => simpa using hcol
              | succ j =>
                  simpa using hpt j (by simpa using h1) (by simpa using h2)

theorem colorList_none (cm : List ((Bool × Bool) × String)) (es : List Edge) :
    colorList cm es = none ↔
      ∃ e ∈ es, lookupCM cm (e.in_conditional, e.in_loop) = none := by
  induction es with
  | nil => simp [colorList]
  | cons e rest ih =>
      simp only [colorList]
      cases hcol : lookupCM cm (e.in_conditional, e.in_loop) with
      | none => simp [hcol]
      | some col =>
          cases hrest : colorList cm rest with
          | none =>
              simp only [hrest] at ih
              simp only [hcol, hrest]
              simp only [eq_self_iff_true, true_iff] at ih ⊢
              obtain ⟨e', he', hc⟩ := ih
              exact ⟨e', List.mem_cons_of_mem e he', hc⟩
          | some cols =>
              simp only [hrest] at ih
              simp only [hcol, hrest]
              constructor
              · intro hcontra
                exact absurd hcontra (by simp)
              · rintro ⟨e', he', hc⟩
                rcases List.mem_cons.mp he' with rfl | he'
                · rw [hcol] at hc
                  exact absurd hc (by simp)
                · have hx : (some cols : Option (List String)) = none :=
                    ih.mpr ⟨e', he', hc⟩
                  exact absurd hx (by simp)

/-! ## Concrete source units used to settle the claims -/

/-- A host environment whose builtin-name set is empty (none of the
names used in the examples is a builtin there). -/
def bset0 : String → Bool := fun _ => false

/-- `def inner(): call_a()` -/
def innerT : Node := .FunctionDef "inner" (NL [stmtCall "call_a"])

/-- `def outer(): def inner(): call_a() / call_b()` -/
def outerT : Node := .FunctionDef "outer" (NL [innerT, stmtCall "call_b"])

/-- Module holding `outer`. -/
def M1 : Node := .Other (NL [outerT])

/-- `def h(): f(g())` — a plain-name call in another call's argument. -/
def hT : Node :=
  .FunctionDef "h" (NL [.Other (NL [.Call (.Name "f") (NL [.Call (.Name "g") .nil])])])

def M2 : Node := .Other (NL [hT])

/-- `def h3(): (f())(g())` — the callee is itself a call. -/
def h3T : Node :=
  .FunctionDef "h3"
    (NL [.Other (NL [.Call (.Call (.Name "f") .nil) (NL [.Call (.Name "g") .nil])])])

def M3 : Node := .Other (NL [h3T])

/-- `def f(): g()` in the first source unit. -/
def fA : Node := .FunctionDef "f" (NL [stmtCall "g"])

def MA : Node := .Other (NL [fA])

/-- `def f(): for ...: g()` in the second source unit. -/
def fB : Node := .FunctionDef "f" (NL [.For (NL [stmtCall "g"])])

def MB : Node := .Other (NL [fB])

/-- `def q(): if ...: for ...: g()` -/
def q1 : Node := .FunctionDef "q" (NL [.If (NL [.For (NL [stmtCall "g"])])])

/-- `def q(): for ...: if ...: g()` -/
def q2 : Node := .FunctionDef "q" (NL [.For (NL [.If (NL [stmtCall "g"])])])

/-- `def q(): for ...: g()` -/
def q3 : Node := .FunctionDef "q" (NL [.For (NL [stmtCall "g"])])

def Q1M : Node := .Other (NL [q1])

def Q2M : Node := .Other (NL [q2])

def Q3M : Node := .Other (NL [q3])

/-- `def d(): g(); if ...: g(); for ...: g()` — three calls to the same
name with three flag combinations. -/
def d3T : Node :=
  .FunctionDef "d"
    (NL [stmtCall "g", .If (NL [stmtCall "g"]), .For (NL [stmtCall "g"])])

def M6 : Node := .Other (NL [d3T])

/-- `class C: g()` nested inside `def f8():`. -/
def cNestT : Node := .ClassDef "C" (NL [stmtCall "g"])

def f8T : Node := .FunctionDef "f8" (NL [cNestT])

def M8 : Node := .Other (NL [f8T])

/-- Two top-level definitions sharing the name `f`. -/
def fC1 : Node := .FunctionDef "f" (NL [stmtCall "a"])

def fC2 : Node := .FunctionDef "f" (NL [stmtCall "b"])

def M8b : Node := .Other (NL [fC1, fC2])

/-- `def g9(): x()` nested under an `if` inside `def f9():`. -/
def g9T : Node := .FunctionDef "g9" (NL [stmtCall "x"])

def f9T : Node := .FunctionDef "f9" (NL [.If (NL [g9T])])

def M9n : Node := .Other (NL [f9T])

/-- A module-top-level `for ...: g()` outside any definition. -/
def loopT : Node := .For (NL [stmtCall "g"])

def M10 : Node := .Other (NL [loopT])

/-! ## Claims -/

/-- Claim C1, counterexample: in `def outer(): def inner(): call_a() /
call_b()`, both calls are attributed to `outer`, but — contrary to the
claim — NO separate entry under `inner` is ever produced:
`visit_FunctionDef` does not call `generic_visit`, so `inner` is never
visited as its own traversal root and never becomes a graph owner. -/
theorem c1_counterexample :
    lookupG (extract M1).graph outerT
        = [⟨.Name "call_a", false, false⟩, ⟨.Name "call_b", false, false⟩] ∧
    memG (extract M1).graph innerT = false ∧
    (extract M1).graph
        = [(outerT, [⟨.Name "call_a", false, false⟩, ⟨.Name "call_b", false, false⟩])] :=
  ⟨rfl, rfl, rfl⟩

/-- Claim C1, amended: a plain-name call inside a nested definition is
attributed to the outer owning definition (the traversal root); a
registration pass never touches any owner other than its root, and the
nested definition is recorded in the DefinitionIndex but is not visited
as its own traversal root, so no separate entry under it is produced. -/
theorem c1_outer_attribution :
    (∀ (n p q : Node) (c l : Bool) (s : St), q ≠ p →
        lookupG (registerCalls n p c l s).graph q = lookupG s.graph q) ∧
    (extract M1).graph
        = [(outerT, [⟨.Name "call_a", false, false⟩, ⟨.Name "call_b", false, false⟩])] ∧
    lookupIndex (extract M1).index "inner" = some innerT ∧
    memG (extract M1).graph innerT = false := by
  refine ⟨?_, rfl, rfl, rfl⟩
  intro n p q c l s hqp
  rw [registerCalls_graph, if_neg hqp, List.append_nil]

/-- Witness for `c1_outer_attribution`: its general part applied to a
concrete registration pass and a concrete foreign owner. -/
theorem c1_outer_attribution_witness :
    lookupG (registerCalls (stmtCall "x") outerT false false initSt).graph innerT
      = lookupG initSt.graph innerT :=
  c1_outer_attribution.1 (stmtCall "x") outerT innerT false false initSt (by decide)

/-- Claim C2, counterexample: in `def h(): f(g())` the plain-name call
`g()` lies inside `h`'s span but yields NO CallEdge and NO projected
edge — `_register_calls` does not recurse into a `Call` node's
children, so calls in call arguments are lost. -/
theorem c2_counterexample :
    lookupG (extract M2).graph hT = [⟨Node.Name "f", false, false⟩] ∧
    to_networkx (extract M2) false bset0
      = some ⟨["h", "f"], [⟨"h", "f", 0, false, false⟩]⟩ :=
  ⟨rfl, rfl⟩

/-- Claim C2, amended: a plain-name call NOT nested inside another call
expression yields exactly one CallEdge, appended to the traversal
root's list (a `Call` node emits exactly its own record and nothing for
its argument subtrees), and exactly one projected edge when builtin
filtering is off; a plain-name call inside the arguments of another
call expression yields no edge at all. -/
theorem c2_plain_call_edges :
    (∀ (id : String) (args : NodeList) (c l : Bool),
        emitted (.Call (.Name id) args) c l = [⟨.Name id, c, l⟩]) ∧
    (∀ (n p : Node) (c l : Bool) (s : St),
        lookupG (registerCalls n p c l s).graph p
          = lookupG s.graph p ++ emitted n c l) ∧
    lookupG (extract M2).graph hT = [⟨Node.Name "f", false, false⟩] ∧
    to_networkx (extract M2) false bset0
      = some ⟨["h", "f"], [⟨"h", "f", 0, false, false⟩]⟩ := by
  refine ⟨fun id args c l => rfl, ?_, rfl, rfl⟩
  intro n p c l s
  rw [registerCalls_graph, if_pos rfl]

/-- Claim C3, counterexample: in `def h3(): (f())(g())` — a call whose
callee is itself a call — the claim promises the argument call `g()` is
still recorded under `h3`; in fact the extractor records nothing at
all (the call graph is empty) because `_register_calls` does not
recurse into any `Call` node. -/
theorem c3_counterexample :
    (extract M3).graph = [] ∧ (extract M3).index = [("h3", h3T)] :=
  ⟨rfl, rfl⟩

/-- Claim C3, amended: a call expression whose callee is not a plain
name emits no edge AND does not recurse into the call node's children,
so plain-name calls nested in its arguments are not recorded; the
registration state is returned entirely unchanged. -/
theorem c3_ignored_callee :
    (∀ (f : Node) (args : NodeList) (p : Node) (c l : Bool) (s : St),
        (∀ id, f ≠ Node.Name id) →
        registerCalls (.Call f args) p c l s = s) ∧
    (extract M3).graph = [] := by
  refine ⟨?_, rfl⟩
  intro f args p c l s hf
  cases f with
  | Name id => exact absurd rfl (hf id)
  | FunctionDef nm b => rfl
  | ClassDef nm b => rfl
  | If cs => rfl
  | IfExp cs => rfl
  | For cs => rfl
  | While cs => rfl
  | Comp cs => rfl
  | Call g a => rfl
  | Attribute cs => rfl
  | Other cs => rfl

/-- Witness for `c3_ignored_callee`: its general part applied to the
concrete call-on-a-call `(f())(g())`. -/
theorem c3_ignored_callee_witness :
    registerCalls
        (.Call (.Call (.Name "f") .nil) (NL [.Call (.Name "g") .nil]))
        h3T false false initSt
      = initSt :=
  c3_ignored_callee.1 (.Call (.Name "f") .nil) (NL [.Call (.Name "g") .nil])
    h3T false false initSt (fun _ h => Node.noConfusion h)

/-- Claim C4, counterexample: the two source units `def f(): g()` and
`def f(): for ...: g()` each project to one `f → g` edge (key 0), but
the merged graph contains a SINGLE `f → g` edge — `nx.compose`
identifies multigraph edges by `(src, tgt, key)`, so the edge multisets
are not concatenated; the right-hand input's attributes win. -/
theorem c4_counterexample :
    merge_networkx [extract MA, extract MB] false bset0
      = some ⟨["f", "g"], [⟨"f", "g", 0, false, true⟩]⟩ :=
  rfl

/-- Claim C4, amended: merging is left-to-right pairwise composition;
the node set of a composition is the union of the input node sets; the
edge lists concatenate exactly when no two edges across the inputs
share a `(source, target, key)` triple — and since auto-assigned keys
restart at 0 per node pair in every projection, two inputs with an edge
between the same node pair collide and are identified, the later
input's attributes winning (as in the counterexample's inputs). -/
theorem c4_merge_semantics :
    (∀ G H : Graph,
        (∀ e ∈ H.edges, e.src ∈ H.nodes ∧ e.tgt ∈ H.nodes) →
        ∀ x, x ∈ (compose G H).nodes ↔ x ∈ G.nodes ∨ x ∈ H.nodes) ∧
    (∀ G H : Graph,
        List.Pairwise (fun a b => sameKey a b = false) (G.edges ++ H.edges) →
        (compose G H).edges = G.edges ++ H.edges) ∧
    (∃ gA gB, to_networkx (extract MA) false bset0 = some gA ∧
        to_networkx (extract MB) false bset0 = some gB ∧
        merge_networkx [extract MA, extract MB] false bset0
          = some (compose gA gB)) ∧
    merge_networkx [extract MA, extract MB] false bset0
      = some ⟨["f", "g"], [⟨"f", "g", 0, false, true⟩]⟩ := by
  refine ⟨compose_nodes, compose_edges_disjoint, ⟨_, _, rfl, rfl, rfl⟩, rfl⟩

/-- Witness for `c4_merge_semantics`: its node-union and disjoint-edge
parts applied to two concrete graphs. -/
theorem c4_merge_semantics_witness :
    ("a" ∈ (compose ⟨["a", "b"], [⟨"a", "b", 0, false, false⟩]⟩
        ⟨["c", "d"], [⟨"c", "d", 0, true, false⟩]⟩).nodes ↔
      "a" ∈ ["a", "b"] ∨ "a" ∈ ["c", "d"]) ∧
    (compose ⟨["a", "b"], [⟨"a", "b", 0, false, false⟩]⟩
        ⟨["c", "d"], [⟨"c", "d", 0, true, false⟩]⟩).edges
      = [⟨"a", "b", 0, false, false⟩, ⟨"c", "d", 0, true, false⟩] :=
  ⟨c4_merge_semantics.1 ⟨["a", "b"], [⟨"a", "b", 0, false, false⟩]⟩
      ⟨["c", "d"], [⟨"c", "d", 0, true, false⟩]⟩ (by decide) "a",
   c4_merge_semantics.2.1 ⟨["a", "b"], [⟨"a", "b", 0, false, false⟩]⟩
      ⟨["c", "d"], [⟨"c", "d", 0, true, false⟩]⟩ (by decide)⟩

/-- Claim C5: within one registration pass the context flags are
monotonic — every call record found in the graph after a pass either
was already there or carries flags at least as large as the pass's
entry flags — and concretely a call nested in a conditional and a loop
(either order) gets both flags `true`, while a call nested only in a
loop keeps `in_conditional = false`. -/
theorem c5_flag_monotonicity :
    (∀ (n p : Node) (c l : Bool) (s : St) (q : Node) (e : Call),
        e ∈ lookupG (registerCalls n p c l s).graph q →
        e ∈ lookupG s.graph q ∨
          ((c = true → e.is_conditional = true) ∧
           (l = true → e.is_loop = true))) ∧
    lookupG (extract Q1M).graph q1 = [⟨.Name "g", true, true⟩] ∧
    lookupG (extract Q2M).graph q2 = [⟨.Name "g", true, true⟩] ∧
    lookupG (extract Q3M).graph q3 = [⟨.Name "g", false, true⟩] := by
  refine ⟨?_, rfl, rfl, rfl⟩
  intro n p c l s q e he
  rw [registerCalls_graph] at he
  rcases List.mem_append.mp he with h | h
  · exact Or.inl h
  · by_cases hq : q = p
    · rw [if_pos hq] at h
      exact Or.inr (emitted_mono n c l e h)
    · rw [if_neg hq] at h
      simp at h

/-- Witness for `c5_flag_monotonicity`: its general part applied to a
concrete pass entered with both flags already `true`. -/
theorem c5_flag_monotonicity_witness :
    (⟨Node.Name "g", true, true⟩ : Call)
        ∈ lookupG initSt.graph q1 ∨
      ((true = true → (⟨Node.Name "g", true, true⟩ : Call).is_conditional = true) ∧
       (true = true → (⟨Node.Name "g", true, true⟩ : Call).is_loop = true)) :=
  c5_flag_monotonicity.1 (stmtCall "g") q1 true true initSt q1
    ⟨Node.Name "g", true, true⟩ (by decide)

/-- Claim C6: projection skips a CallEdge exactly when builtin
filtering is on and the callee is a builtin — captured by the exact
correspondence between the projected edges (keys stripped) and the
spec-side `specEntries` list, which in particular preserves one edge
per surviving CallEdge with no deduplication; with filtering on no
projected edge targets a builtin name; and three same-name calls
concretely yield three parallel edges with keys 0, 1, 2. -/
theorem c6_projection :
    (∀ (s : St) (fb : Bool) (bset : String → Bool) (G : Graph),
        to_networkx s fb bset = some G →
        specEntries fb bset s.graph = some (G.edges.map stripE)) ∧
    (∀ (s : St) (bset : String → Bool) (G : Graph),
        to_networkx s true bset = some G →
        ∀ e ∈ G.edges, bset e.tgt = false) ∧
    to_networkx (extract M6) true bset0
      = some ⟨["d", "g"],
          [⟨"d", "g", 0, false, false⟩, ⟨"d", "g", 1, true, false⟩,
           ⟨"d", "g", 2, false, true⟩]⟩ := by
  refine ⟨to_networkx_edges, ?_, rfl⟩
  intro s bset G h e he
  have hs := to_networkx_edges s true bset G h
  have hmem : stripE e ∈ G.edges.map stripE := List.mem_map_of_mem stripE he
  exact specEntries_builtin bset s.graph (G.edges.map stripE) hs (stripE e) hmem

/-- Witness for `c6_projection`: its characterization applied to the
concrete three-call projection. -/
theorem c6_projection_witness :
    specEntries true bset0 (extract M6).graph
      = some [("d", "g", false, false), ("d", "g", true, false),
              ("d", "g", false, true)] := by
  have h := c6_projection.1 (extract M6) true bset0
    ⟨["d", "g"],
     [⟨"d", "g", 0, false, false⟩, ⟨"d", "g", 1, true, false⟩,
      ⟨"d", "g", 2, false, true⟩]⟩ rfl
  simpa [stripE] using h

/-- Claim C7: `color_vector` returns one color per edge, in the
graph's edge order, each obtained by looking the edge's
`(in_conditional, in_loop)` pair up in the colormap; it fails (KeyError)
if and only if the colormap misses a pair occurring on some edge; and
on a one-edge `(true, false)` graph with the module colormap it returns
`["cyan"]`. -/
theorem c7_color_vector :
    (∀ (G : Graph) (cm : List ((Bool × Bool) × String)) (cs : List String),
        color_vector G cm = some cs →
        cs.length = G.edges.length ∧
        ∀ (i : Nat) (h1 : i < G.edges.length) (h2 : i < cs.length),
          lookupCM cm ((G.edges.get ⟨i, h1⟩).in_conditional,
              (G.edges.get ⟨i, h1⟩).in_loop) = some (cs.get ⟨i, h2⟩)) ∧
    (∀ (G : Graph) (cm : List ((Bool × Bool) × String)),
        color_vector G cm = none ↔
          ∃ e ∈ G.edges, lookupCM cm (e.in_conditional, e.in_loop) = none) ∧
    color_vector ⟨["f", "g"], [⟨"f", "g", 0, true, false⟩]⟩ colors
      = some ["cyan"] := by
  refine ⟨?_, ?_, rfl⟩
  · intro G cm cs h
    have hl := colorList_some cm G.edges cs h
    exact ⟨hl.1.trans rfl, hl.2⟩
  · intro G cm
    exact colorList_none cm G.edges

/-- Witness for `c7_color_vector`: its success part applied to the
concrete one-edge graph and the module colormap. -/
theorem c7_color_vector_witness :
    (["cyan"] : List String).length
        = (Graph.mk ["f", "g"] [⟨"f", "g", 0, true, false⟩]).edges.length ∧
    ∀ (i : Nat)
      (h1 : i < (Graph.mk ["f", "g"] [⟨"f", "g", 0, true, false⟩]).edges.length)
      (h2 : i < (["cyan"] : List String).length),
      lookupCM colors
          (((Graph.mk ["f", "g"] [⟨"f", "g", 0, true, false⟩]).edges.get
              ⟨i, h1⟩).in_conditional,
           ((Graph.mk ["f", "g"] [⟨"f", "g", 0, true, false⟩]).edges.get
              ⟨i, h1⟩).in_loop)
        = some ((["cyan"] : List String).get ⟨i, h2⟩) :=
  c7_color_vector.1 ⟨["f", "g"], [⟨"f", "g", 0, true, false⟩]⟩ colors ["cyan"] rfl

/-- Claim C8, counterexample: in `def f8(): class C: g()` the nested
class `C` is NOT recorded in the DefinitionIndex — `_register_calls`
registers only nested `FunctionDef` children (line 90), and
`visit_ClassDef` is never reached for a class inside a definition's
registration subtree. -/
theorem c8_counterexample :
    lookupIndex (extract M8).index "C" = none ∧
    lookupIndex (extract M8).index "f8" = some f8T :=
  ⟨rfl, rfl⟩

/-- Claim C8, amended: the DefinitionIndex records every definition
visited as a traversal root and every nested FUNCTION definition, with
last-write-wins on name collisions and no error; a class definition
nested inside another definition's body is not recorded. -/
theorem c8_definition_index :
    (∀ (ix : List (String × Node)) (k : String) (v : Node),
        lookupIndex (setIndex ix k v) k = some v) ∧
    lookupIndex (extract M9n).index "g9" = some g9T ∧
    (extract M8b).index = [("f", fC2)] ∧
    lookupIndex (extract M8).index "C" = none := by
  refine ⟨?_, rfl, rfl, rfl⟩
  intro ix k v
  induction ix with
  | nil => simp [setIndex, lookupIndex]
  | cons kv rest ih =>
      obtain ⟨k', v'⟩ := kv
      by_cases h : k' = k
      · subst h; simp [setIndex, lookupIndex]
      · simp [setIndex, lookupIndex, h, ih]

/-- Claim C9: the extraction pass is total — the error-explicit replay
`extractChk`, in which every attribute access the Extractor performs
can fail, succeeds on every tree and agrees with `extract`. -/
theorem c9_extraction_total (root : Node) : extractChk root = some (extract root) :=
  visitChk_eq root initSt

/-- Claim C10: a module-top-level `for` loop whose body calls `g()`
makes the loop node itself a graph owner; the loop node has no `.name`,
so both `to_networkx` (in an environment where `g` is not a builtin)
and `pretty_calls` fail with an `AttributeError` — projection is not
total over extractor outputs. -/
theorem c10_toplevel_loop :
    (extract M10).graph = [(loopT, [⟨.Name "g", false, true⟩])] ∧
    getName loopT = none ∧
    to_networkx (extract M10) true bset0 = none ∧
    pretty_calls (extract M10) = none :=
  ⟨rfl, rfl, rfl, rfl⟩

/-- Witness for `c2_plain_call_edges`: its single-edge part applied to
the concrete call `f(g())`. -/
theorem c2_plain_call_edges_witness :
    emitted (.Call (.Name "f") (NL [.Call (.Name "g") .nil])) false false
      = [⟨.Name "f", false, false⟩] :=
  c2_plain_call_edges.1 "f" (NL [.Call (.Name "g") .nil]) false false

/-- Witness for `c8_definition_index`: its last-write-wins part applied
to a concrete assignment. -/
theorem c8_definition_index_witness :
    lookupIndex (setIndex [("f", fC1)] "f" fC2) "f" = some fC2 :=
  c8_definition_index.1 [("f", fC1)] "f" fC2

/-- Witness for `c9_extraction_total`: the replay applied to a concrete
module. -/
theorem c9_extraction_total_witness :
    extractChk M1 = some (extract M1) :=
  c9_extraction_total M1
